import Mathlib

/-!
Verification development for the seqio task-caching pipeline
(`seqio/scripts/cache_tasks_main.py`).

The Python source is shallowly embedded below:

* records (`tf.Example` feature dicts of numpy values) become association
  lists from feature names to an abstract `Val`;
* the Beam `GetStats` transform (`GetStats.expand`, `_count_tokens`,
  `_merge_dicts`) becomes a pure function from the declared output features
  and the record list to an optional statistics dictionary (`none` models
  the `assert` in `_merge_dicts` firing);
* Python's `str.replace("tokens", "max_tokens")` (the `rename_max_stat`
  lambda) becomes `replaceTok`, a fuel-structured leftmost non-overlapping
  replacement on character lists;
* `GetInfo`, `PreprocessTask._emit_examples`, the task-selection regexes,
  the `run_pipeline` planning loop and the completion-marker dataflow graph
  are embedded further down.

Beam's `CombinePerKey`/`CombineGlobally` run combiners over an unordered
multiset; all combiners used by the source (integer sum, max, disjoint dict
union) are associative and commutative, so the embedding fixes one canonical
order without loss.
-/

/-- Association-list lookup, the shallow embedding of Python `dict[k]` /
`k in d` for the string-keyed dictionaries used throughout the source. -/
def alookup {β : Type} (k : String) : List (String × β) → Option β
  | [] => none
  | p :: ps => if p.1 = k then some p.2 else alookup k ps

/-- Keys of a dictionary, embedding Python `set(d)`. -/
def keysOf {β : Type} (d : List (String × β)) : List String :=
  d.map Prod.fst

/-- A numpy feature value as far as the pipeline inspects it:
`intArr dtype xs` is a rank-1 integer ndarray with the given dtype name;
`other dtype rank` is any other value (non-array, or an array of a
non-integer dtype), of which downstream code only reads dtype and rank. -/
inductive Val where
  | intArr (dtype : String) (xs : List Int)
  | other (dtype : String) (rank : Nat)
deriving DecidableEq

/-- A transformed record: a feature dict, as produced by
`ds.as_numpy_iterator()` in `PreprocessTask._emit_examples`. -/
abbrev Ex := List (String × Val)

/-- Number of elements strictly greater than 1, embedding
`int(sum(ex[feat] > 1))` from `_count_tokens._count`. -/
def countGt1 (xs : List Int) : Int :=
  ((xs.filter fun x => decide (1 < x)).length : Int)

/-- The body of `_count_tokens._count`: yields a token count exactly when
the feature is present and is an integer ndarray
(`feat in ex and isinstance(ex[feat], np.ndarray) and ex[feat].dtype in
(np.int32, np.int64)`). -/
def countTok (feat : String) (ex : Ex) : Option Int :=
  match alookup feat ex with
  | some (Val.intArr dt xs) =>
      if dt = "int32" ∨ dt = "int64" then some (countGt1 xs) else none
  | _ => none

/-- Total token count of a record for a feature, defaulting to 0 when the
feature does not qualify (used only to state theorems about records where
`countTok` is `some`). -/
def numTokens (feat : String) (ex : Ex) : Int :=
  (countTok feat ex).getD 0

/-- The character list of the pattern `"tokens"`. -/
def tokPat : List Char := ['t', 'o', 'k', 'e', 'n', 's']

/-- The character list of the replacement `"max_tokens"`. -/
def maxPat : List Char := ['m', 'a', 'x', '_', 't', 'o', 'k', 'e', 'n', 's']

/-- Boolean list-prefix test (p is an initial segment of l). -/
def isPre : List Char → List Char → Bool
  | [], _ => true
  | _ :: _, [] => false
  | p :: ps, c :: cs => p == c && isPre ps cs

/-- Fuelled worker for `replaceTok`; fuel at least the list length makes it
total leftmost non-overlapping replacement of `"tokens"` by
`"max_tokens"`, exactly Python's `s.replace("tokens", "max_tokens")`. -/
def replaceTokF : Nat → List Char → List Char
  | _, [] => []
  | 0, l => l
  | n + 1, c :: cs =>
      if isPre tokPat (c :: cs) then maxPat ++ replaceTokF n (cs.drop 5)
      else c :: replaceTokF n cs

/-- Leftmost non-overlapping replacement of `"tokens"` by `"max_tokens"`
on a character list. -/
def replaceTok (l : List Char) : List Char :=
  replaceTokF l.length l

/-- The `rename_max_stat` lambda of `GetStats.expand`:
`x[0].replace("tokens", "max_tokens")`. -/
def strReplaceTok (s : String) : String :=
  String.mk (replaceTok s.data)

/-- Whether `"tokens"` occurs as a substring. -/
def containsTok : List Char → Bool
  | [] => false
  | c :: cs => isPre tokPat (c :: cs) || containsTok cs

/-- Python `sum` over a list of ints (the `CombinePerKey(sum)` combiner). -/
def pySum (l : List Int) : Int :=
  l.foldl (· + ·) 0

/-- Python `max` over a list of ints (the `CombinePerKey(max)` combiner);
Python raises on an empty list, which cannot occur for a key produced by
`CombinePerKey`, so the `[]` case is an arbitrary default. -/
def pyMax : List Int → Int
  | [] => 0
  | v :: vs => vs.foldl max v

/-- First-occurrence-free key list of a pair list (the set of keys grouped
by `CombinePerKey`; Beam's key order is arbitrary, we fix `List.dedup`). -/
def dedupKeys (l : List (String × Int)) : List String :=
  (l.map Prod.fst).dedup

/-- Embedding of Beam `CombinePerKey comb`: one output pair per distinct
key, combining all values carried by that key. -/
def perKey (comb : List Int → Int) (l : List (String × Int)) : List (String × Int) :=
  (dedupKeys l).map fun k =>
    (k, comb ((l.filter fun p => decide (p.1 = k)).map Prod.snd))

/-- The flattened `token_counts` collection of `GetStats.expand`: for each
declared output feature, one `("<feat>_tokens", count)` pair per record in
which the feature qualifies (`_count_tokens` + `Flatten`). -/
def tokenPairs (feats : List String) (records : List Ex) : List (String × Int) :=
  feats.flatMap fun feat =>
    records.filterMap fun ex =>
      (countTok feat ex).map fun n => (feat ++ "_tokens", n)

/-- The stream of singleton dictionaries reaching `merge_stats` in
`GetStats.expand`: the example-count dict, then the per-key token sums,
then the per-key token maxima with their key renamed by
`rename_max_stat`. Each element is a one-entry dict (`to_dict`). -/
def statsDicts (feats : List String) (records : List Ex) :
    List (List (String × Int)) :=
  [[("examples", (records.length : Int))]]
    ++ ((perKey pySum (tokenPairs feats records)).map fun p => [p])
    ++ ((perKey pyMax (tokenPairs feats records)).map fun p =>
          [(strReplaceTok p.1, p.2)])

/-- Boolean key-disjointness of two dicts, embedding
`not set(merged_dict).intersection(d)`. -/
def dictDisjoint (a b : List (String × Int)) : Bool :=
  a.all fun p => b.all fun q => !(p.1 == q.1)

/-- Worker for `_merge_dicts`: fold `merged_dict.update(d)` guarded by the
`assert`; `none` models the assertion firing. For key-disjoint dicts,
`update` appends the new entries, hence `acc ++ d`. -/
def mergeGo (acc : List (String × Int)) :
    List (List (String × Int)) → Option (List (String × Int))
  | [] => some acc
  | d :: rest => if dictDisjoint acc d then mergeGo (acc ++ d) rest else none

/-- The `_merge_dicts` combiner of `GetStats.expand`. -/
def mergeDicts (ds : List (List (String × Int))) : Option (List (String × Int)) :=
  mergeGo [] ds

/-- The complete `GetStats` transform: statistics dictionary for a split,
or `none` when the `_merge_dicts` assertion aborts the task. -/
def getStats (feats : List String) (records : List Ex) :
    Option (List (String × Int)) :=
  mergeDicts (statsDicts feats records)

example : getStats ["f"]
    [[("f", Val.intArr "int32" [2, 2, 1])],
     [("f", Val.intArr "int32" [2, 1, 1])],
     [("f", Val.intArr "int32" [2, 2, 2])]] =
    some [("examples", 3), ("f_tokens", 6), ("f_max_tokens", 3)] := by decide

/-- Modelled from the spec: the value of `seqio.__version__` (the
`schemaVersionTag` of §4.5), an external constant whose value no claim
depends on. -/
def seqioVersion : String := "0.0.0"

/-- Result of `GetInfo`: either the empty mapping (zero-record split) or
the full descriptor; feature metadata is `(rank, dtype)`, where the info
file records the shape as `[None] * rank`. -/
inductive InfoOut where
  | emptyInfo
  | info (numShards : Nat) (version : String)
      (features : List (String × Nat × String))
deriving DecidableEq

/-- Shape rank and dtype name of a value, as computed from `tf.constant(v)`
in `GetInfo._info_dict`. -/
def featureMeta : Val → Nat × String
  | Val.intArr dt _ => (1, dt)
  | Val.other dt r => (r, dt)

/-- The body of `GetInfo._info_dict`: empty input gives the empty mapping;
otherwise the descriptor is built from the single sampled record. -/
def infoDict (numShards : Nat) (sampled : List Ex) : InfoOut :=
  match sampled with
  | [] => InfoOut.emptyInfo
  | ex :: _ => InfoOut.info numShards seqioVersion
      (ex.map fun p => (p.1, featureMeta p.2))

/-- Modelled from the spec: Beam `combiners.Sample.FixedSizeGlobally(1)`
(external to the repo) yields a list holding at most one record, empty
exactly when the input collection is empty; which record is sampled is
arbitrary, so the embedding fixes the first. -/
def sampleFixedOne (l : List Ex) : List Ex :=
  l.take 1

/-- The complete `GetInfo` transform. -/
def getInfo (numShards : Nat) (records : List Ex) : InfoOut :=
  infoDict numShards (sampleFixedOne records)

/-- Modelled from the spec: `tf.data` `ds.repeat().take(n)` (external to
the repo) on a finite stream — the stream cycled endlessly then truncated
to `n` elements; repeating an empty stream is empty. `cur` is the not yet
consumed tail of the current cycle of `full`. -/
def cycleTake (full : List α) : Nat → List α → List α
  | 0, _ => []
  | n + 1, [] =>
      match full with
      | [] => []
      | c :: cs => c :: cycleTake full n cs
  | n + 1, c :: cs => c :: cycleTake full n cs

/-- Embedding of `ds.repeat().take(n)` on a whole stream. -/
def repeatTake (l : List α) (n : Nat) : List α :=
  cycleTake l n l

/-- One shard of `PreprocessTask._emit_examples`: the shard's raw record
stream, optionally capped by `repeat().take(max_input_examples //
num_shards)` (Python `int(a / b)`; embedded as Nat division, which agrees
with the float division of the source for all realistic magnitudes), then
run through `task.preprocess_precache`. A cap of 0 is falsy in Python, so
`if self._max_input_examples:` skips the truncation. -/
def emitShard (maxInput : Option Nat) (numShards : Nat)
    (preprocess : List α → List β) (shard : List α) : List β :=
  let ds :=
    match maxInput with
    | some c => if c = 0 then shard else repeatTake shard (c / numShards)
    | none => shard
  preprocess ds

/-- The whole split through `PreprocessTask.expand`: every shard emitted
independently (`FlatMap(_emit_examples)`); the surrounding `Reshuffle`s
only permute, so record counts are preserved. -/
def emitSplit (maxInput : Option Nat) (preprocess : List α → List β)
    (shards : List (List α)) : List β :=
  shards.flatMap (emitShard maxInput shards.length preprocess)

/-- A regex atom of the fragment the embedding supports: a literal
character or `.` (any character except newline, Python's default). The
claims only exercise literals, `.`, and `*`. -/
inductive RAtom where
  | rchar (c : Char)
  | rdot
deriving DecidableEq

/-- A regex piece: a single atom or a starred atom. -/
inductive RPiece where
  | ronce (a : RAtom)
  | rstar (a : RAtom)
deriving DecidableEq

/-- Whether an atom matches one character. -/
def atomMatches : RAtom → Char → Bool
  | RAtom.rchar d, c => c == d
  | RAtom.rdot, c => !(c == '\n')

/-- Fuelled full-match of a piece list against a character list; each
recursive call shrinks pieces-plus-characters, so fuel
`ps.length + cs.length + 1` suffices. Matches Python
`re.match(pattern + r"\Z", s)`: the whole string must be consumed. -/
def rmatchF : Nat → List RPiece → List Char → Bool
  | _, [], [] => true
  | _, [], _ :: _ => false
  | 0, _ :: _, _ => false
  | _ + 1, RPiece.ronce _ :: _, [] => false
  | n + 1, RPiece.ronce a :: ps, c :: cs => atomMatches a c && rmatchF n ps cs
  | n + 1, RPiece.rstar a :: ps, cs =>
      rmatchF n ps cs ||
        (match cs with
         | [] => false
         | c :: cs2 => atomMatches a c && rmatchF n (RPiece.rstar a :: ps) cs2)

/-- Full match of a piece list against a character list. -/
def rmatch (ps : List RPiece) (cs : List Char) : Bool :=
  rmatchF (ps.length + cs.length + 1) ps cs

/-- Parse one pattern character into an atom. -/
def parseAtom (c : Char) : RAtom :=
  if c = '.' then RAtom.rdot else RAtom.rchar c

/-- Parse a pattern of the supported fragment (literals, `.`, postfix
`*`); enough for the patterns the spec and claims use. -/
def parsePat : List Char → List RPiece
  | [] => []
  | c :: '*' :: rest => RPiece.rstar (parseAtom c) :: parsePat rest
  | c :: rest => RPiece.ronce (parseAtom c) :: parsePat rest

/-- Matching of the regex `run_pipeline` builds from a pattern list:
`re.compile(r"(%s\Z)" % r"\Z|".join(pats)).match(t)`. With at least one
pattern this is an alternation of end-anchored branches, so it holds iff
some pattern full-matches `t`; joining the empty list yields the pattern
`(\Z)`, which `re.match` accepts exactly on the empty string. -/
def matchJoined (pats : List (List RPiece)) (t : List Char) : Bool :=
  match pats with
  | [] => decide (t = [])
  | _ :: _ => pats.any fun p => rmatch p t

/-- Python truthiness on the include list: `task_names or [".*"]`. -/
def effIncludes : Option (List String) → List String
  | none => [".*"]
  | some [] => [".*"]
  | some (p :: ps) => p :: ps

/-- Python truthiness on the exclude list: `excluded_tasks or []`. -/
def effExcludes : Option (List String) → List String
  | none => []
  | some l => l

/-- The per-name selection predicate of `run_pipeline`:
`included_regex.match(t) and not excluded_regex.match(t)`. -/
def taskSelected (includes excludes : Option (List String)) (t : String) : Bool :=
  matchJoined ((effIncludes includes).map fun p => parsePat p.data) t.data &&
    !(matchJoined ((effExcludes excludes).map fun p => parsePat p.data) t.data)

/-- The task-name universe `run_pipeline` iterates over, filtered from the
registry in registration order. -/
def selectTasks (registry : List String) (includes excludes : Option (List String)) :
    List String :=
  registry.filter (taskSelected includes excludes)

example : selectTasks ["a", "a_2", "b"] (some ["a*"]) (some ["a_2"]) = ["a"] := by
  decide

/-- A registered task as far as `run_pipeline` inspects it: its name,
`task.supports_caching`, the discovered `task.cache_dir` (if any), and its
split names. -/
structure CTask where
  name : String
  supportsCaching : Bool
  cacheDir : Option String
  splits : List String
deriving DecidableEq

/-- A file-system effect planned or performed by `run_pipeline` for one
task: the eager `tf.io.gfile.rmtree`, the three per-split artifact writes,
and the COMPLETED-marker write. -/
inductive FAction where
  | rmtree (dir : String)
  | writeRecords (dir split : String)
  | writeInfo (dir split : String)
  | writeStats (dir split : String)
  | writeCompletedFile (dir contents : String)
deriving DecidableEq

/-- Embedding of `os.path.join(a, b)` for a relative second component. -/
def pathJoin (a b : String) : String :=
  a ++ "/" ++ b

/-- The three artifact writes registered per split in the `run_pipeline`
loop (`WriteExampleTfRecord`, info `WriteJson`, stats `WriteJson`). -/
def splitActions (outputDir : String) (splits : List String) : List FAction :=
  splits.flatMap fun s =>
    [FAction.writeRecords outputDir s, FAction.writeInfo outputDir s,
     FAction.writeStats outputDir s]

/-- One iteration of the `run_pipeline` task loop: the output directory the
task contributes to the returned list (if any) and the file actions it
plans or performs, in source order. `dirName` stands for the external
`seqio.get_task_dir_from_name`. Note that the source checks
`task.cache_dir and overwrite` (deleting the directory when it equals the
output directory) before it checks `if not task.splits`. -/
def processTask (dirName : String → String) (cacheRoot : String)
    (overwrite : Bool) (contents : String) (t : CTask) :
    Option String × List FAction :=
  if t.supportsCaching = false then (none, [])
  else
    let outputDir := pathJoin cacheRoot (dirName t.name)
    match t.cacheDir with
    | some d =>
        if overwrite = false then (none, [])
        else if d = outputDir then
          if t.splits = [] then (none, [FAction.rmtree outputDir])
          else (some outputDir,
            FAction.rmtree outputDir ::
              (splitActions outputDir t.splits ++
                [FAction.writeCompletedFile outputDir contents]))
        else (none, [])
    | none =>
        if t.splits = [] then (none, [])
        else (some outputDir,
          splitActions outputDir t.splits ++
            [FAction.writeCompletedFile outputDir contents])

/-- The `run_pipeline` planning loop over the selected registry slice:
the returned `output_dirs` list and the concatenated file actions. -/
def runPipeline (dirName : String → String) (registry : List CTask)
    (cacheRoot : String) (overwrite : Bool) (contents : String) :
    List String × List FAction :=
  (registry.filterMap fun t => (processTask dirName cacheRoot overwrite contents t).1,
   registry.flatMap fun t => (processTask dirName cacheRoot overwrite contents t).2)

/-- A node of the completion dataflow wired per task at the end of the
`run_pipeline` loop: the three sink completions per split
(`completion_values`), their `Flatten`, the `Filter(lambda _: False)`, and
the `WriteToText` of the COMPLETED marker. -/
inductive CNode where
  | sinkRecord (split : String)
  | sinkInfo (split : String)
  | sinkStats (split : String)
  | flattenCompletion
  | filterCompletion
  | writeCompleted
deriving DecidableEq

/-- The completion values collected for a task: record, info and stats sink
completions, once per split, in loop order. -/
def completionSinks (splits : List String) : List CNode :=
  splits.flatMap fun s =>
    [CNode.sinkRecord s, CNode.sinkInfo s, CNode.sinkStats s]

/-- The dependency edges of the completion graph as wired by
`run_pipeline`: `Flatten` consumes every completion value, `Filter`
consumes the flattened collection, and the marker `WriteToText` consumes
the filtered collection. -/
def nodeDeps (splits : List String) : CNode → List CNode
  | CNode.flattenCompletion => completionSinks splits
  | CNode.filterCompletion => [CNode.flattenCompletion]
  | CNode.writeCompleted => [CNode.filterCompletion]
  | _ => []

/-- Modelled from the spec: the Beam runtime (external to the repo) may
execute stages in any order that runs a stage only after all the stages it
consumes have completed; a failed run is a trace that simply never executes
some stages. `done` accumulates the stages already executed. -/
def respectsGo (splits : List String) (done : List CNode) : List CNode → Bool
  | [] => true
  | n :: rest =>
      ((nodeDeps splits n).all fun d => decide (d ∈ done)) &&
        respectsGo splits (done ++ [n]) rest

/-- A dependency-respecting execution trace of one task's completion
graph. -/
def respectsDeps (splits : List String) (trace : List CNode) : Bool :=
  respectsGo splits [] trace

/-- One complete schedule of the completion graph: all sinks, then the
flatten, the filter and the marker write. -/
def completeTrace (splits : List String) : List CNode :=
  completionSinks splits ++
    [CNode.flattenCompletion, CNode.filterCompletion, CNode.writeCompleted]

/-- Embedding of Beam `Filter(lambda _: False)` (`discard_completion_values`). -/
def discardAll (l : List α) : List α :=
  l.filter fun _ => false

/-- Modelled from the spec: the file body written by Beam
`WriteToText(..., append_trailing_newlines=..., header=...)` (external to
the repo): the header, then each record, a newline after each piece only
when `append_trailing_newlines` is true. -/
def writeToTextContent (header : String) (records : List String)
    (appendNl : Bool) : String :=
  (header ++ if appendNl then "\n" else "") ++
    String.join (records.map fun r => r ++ if appendNl then "\n" else "")

example : writeToTextContent "hdr" (discardAll ["a", "b"]) false = "hdr" := by
  decide

example : respectsDeps ["train"] (completeTrace ["train"]) = true := by decide

example : respectsDeps ["train"]
    [CNode.sinkRecord "train", CNode.flattenCompletion] = false := by decide

/-! ### Lemmas about the `"tokens" -> "max_tokens"` key rename -/

theorem isPre_iff (p : List Char) : ∀ l, isPre p l = true ↔ ∃ t, l = p ++ t := by
  induction p with
  | nil => intro l; simp [isPre]
  | cons a ps ih =>
    intro l
    cases l with
    | nil => simp [isPre]
    | cons c cs =>
      simp only [isPre, Bool.and_eq_true, beq_iff_eq, ih, List.cons_append,
        List.cons.injEq]
      constructor
      · rintro ⟨rfl, t, rfl⟩
        exact ⟨t, rfl, rfl⟩
      · rintro ⟨t, rfl, rfl⟩
        exact ⟨rfl, t, rfl⟩

theorem replaceTokF_congr : ∀ (n m : Nat) (l : List Char),
    l.length ≤ n → l.length ≤ m → replaceTokF n l = replaceTokF m l := by
  intro n
  induction n with
  | zero =>
    intro m l hn _
    have : l = [] := List.eq_nil_of_length_eq_zero (Nat.le_zero.mp hn)
    subst this
    cases m <;> rfl
  | succ n ih =>
    intro m l hn hm
    cases l with
    | nil => cases m <;> rfl
    | cons c cs =>
      cases m with
      | zero => simp at hm
      | succ m =>
        simp only [List.length_cons, Nat.succ_le_succ_iff] at hn hm
        simp only [replaceTokF]
        by_cases h : isPre tokPat (c :: cs) = true
        · rw [if_pos h, if_pos h,
            ih m (cs.drop 5) (by simpa using Nat.le_trans (Nat.sub_le _ _) hn)
              (by simpa using Nat.le_trans (Nat.sub_le _ _) hm)]
        · rw [if_neg h, if_neg h, ih m cs hn hm]

theorem replaceTok_eq_F (n : Nat) (l : List Char) (h : l.length ≤ n) :
    replaceTokF n l = replaceTok l :=
  replaceTokF_congr n l.length l h le_rfl

theorem not_isPre_underscore (r : List Char) :
    isPre tokPat ('_' :: r) = false := by
  simp [isPre, tokPat]

theorem replaceTokF_cons (n : Nat) (c : Char) (cs : List Char) :
    replaceTokF (n + 1) (c :: cs) =
      if isPre tokPat (c :: cs) then maxPat ++ replaceTokF n (cs.drop 5)
      else c :: replaceTokF n cs := rfl

theorem replaceTok_cons_exp (c : Char) (cs : List Char) :
    replaceTok (c :: cs) =
      if isPre tokPat (c :: cs) then maxPat ++ replaceTokF cs.length (cs.drop 5)
      else c :: replaceTokF cs.length cs := by
  show replaceTokF (c :: cs).length (c :: cs) = _
  rw [List.length_cons]
  exact replaceTokF_cons cs.length c cs

theorem replaceTokF_underscore : ∀ (n : Nat) (l r : List Char),
    (l ++ '_' :: r).length ≤ n →
    replaceTokF n (l ++ '_' :: r) = replaceTok l ++ '_' :: replaceTok r := by
  intro n
  induction n with
  | zero => intro l r h; simp at h
  | succ n ih =>
    intro l r h
    cases l with
    | nil =>
      rw [List.nil_append, replaceTokF_cons, if_neg (by
        simp [not_isPre_underscore])]
      have hr : r.length ≤ n := by
        simp only [List.nil_append, List.length_cons] at h
        omega
      rw [replaceTok_eq_F n r hr]
      rfl
    | cons c cs =>
      rw [List.cons_append] at h ⊢
      simp only [List.length_cons] at h
      rw [replaceTokF_cons]
      have hcs : (cs ++ '_' :: r).length ≤ n := Nat.le_of_succ_le_succ h
      by_cases hp : isPre tokPat (c :: (cs ++ '_' :: r)) = true
      · obtain ⟨t, ht⟩ := (isPre_iff tokPat _).mp hp
        have ht' : (c :: cs) ++ '_' :: r = tokPat ++ t := by
          rw [List.cons_append]; exact ht
        by_cases hlen : 5 ≤ cs.length
        · have hp' : isPre tokPat (c :: cs) = true := by
            have htake : (c :: cs).take 6 = tokPat := by
              have h1 : ((c :: cs) ++ '_' :: r).take 6 = (c :: cs).take 6 :=
                List.take_append_of_le_length (by simp; omega)
              have h2 : ((c :: cs) ++ '_' :: r).take 6 = tokPat := by
                rw [ht', List.take_append_of_le_length (by simp [tokPat])]
                simp [tokPat]
              rw [← h1, h2]
            refine (isPre_iff tokPat _).mpr ⟨(c :: cs).drop 6, ?_⟩
            rw [← htake]
            exact (List.take_append_drop 6 (c :: cs)).symm
          rw [if_pos hp, List.drop_append_of_le_length hlen]
          have hlen2 : (cs.drop 5 ++ '_' :: r).length ≤ n := by
            simp only [List.length_append, List.length_drop, List.length_cons] at *
            omega
          rw [ih (cs.drop 5) r hlen2]
          rw [replaceTok_cons_exp, if_pos hp',
            replaceTok_eq_F cs.length (cs.drop 5) (by simp)]
          rw [List.append_assoc]
        · exfalso
          have h1 : ((c :: cs) ++ '_' :: r).take ((c :: cs).length + 1) =
              (c :: cs) ++ ['_'] := by
            rw [List.take_append 1]
            rfl
          have h2 : ((c :: cs) ++ '_' :: r).take ((c :: cs).length + 1) =
              tokPat.take ((c :: cs).length + 1) := by
            rw [ht']
            exact List.take_append_of_le_length (by simp [tokPat]; omega)
          have hmem : '_' ∈ tokPat := by
            have hm0 : '_' ∈ tokPat.take ((c :: cs).length + 1) := by
              rw [← h2, h1]
              exact List.mem_append_right _ (List.mem_singleton.mpr rfl)
            exact (List.take_sublist _ _).mem hm0
          simp [tokPat] at hmem
      · have hp' : isPre tokPat (c :: cs) = false := by
          by_contra hcon
          have hcon' : isPre tokPat (c :: cs) = true := by
            revert hcon
            cases isPre tokPat (c :: cs) <;> simp
          obtain ⟨t', ht'⟩ := (isPre_iff tokPat _).mp hcon'
          have hext : c :: (cs ++ '_' :: r) = tokPat ++ (t' ++ '_' :: r) := by
            rw [← List.cons_append, ht', List.append_assoc]
          exact hp ((isPre_iff tokPat _).mpr ⟨t' ++ '_' :: r, hext⟩)
        rw [if_neg (by simp [hp]), ih cs r hcs]
        rw [replaceTok_cons_exp, if_neg (by simp [hp']),
          replaceTok_eq_F cs.length cs le_rfl]
        rfl

theorem replaceTok_underscore (l r : List Char) :
    replaceTok (l ++ '_' :: r) = replaceTok l ++ '_' :: replaceTok r :=
  replaceTokF_underscore (l ++ '_' :: r).length l r le_rfl

theorem replaceTokF_of_not_contains : ∀ (n : Nat) (l : List Char),
    l.length ≤ n → containsTok l = false → replaceTokF n l = l := by
  intro n
  induction n with
  | zero =>
    intro l hn _
    have : l = [] := List.eq_nil_of_length_eq_zero (Nat.le_zero.mp hn)
    subst this; rfl
  | succ n ih =>
    intro l hn hc
    cases l with
    | nil => rfl
    | cons c cs =>
      simp only [containsTok, Bool.or_eq_false_iff] at hc
      simp only [replaceTokF, hc.1, Bool.false_eq_true, if_false]
      rw [ih cs (by simpa using Nat.succ_le_succ_iff.mp (by simpa using hn)) hc.2]

theorem replaceTok_of_not_contains (l : List Char) (h : containsTok l = false) :
    replaceTok l = l :=
  replaceTokF_of_not_contains l.length l le_rfl h

theorem strReplaceTok_tokens_key (f : String) (h : containsTok f.data = false) :
    strReplaceTok (f ++ "_tokens") = f ++ "_max_tokens" := by
  apply String.ext
  show (strReplaceTok (f ++ "_tokens")).data = _
  have h1 : (f ++ "_tokens").data = f.data ++ '_' :: tokPat := by
    rw [String.data_append]; rfl
  have h2 : (f ++ "_max_tokens").data = f.data ++ '_' :: maxPat := by
    rw [String.data_append]; rfl
  rw [h2]
  show replaceTok (f ++ "_tokens").data = _
  rw [h1, replaceTok_underscore, replaceTok_of_not_contains f.data h]
  have : replaceTok tokPat = maxPat := by decide
  rw [this]

/-! ### Lemmas about `_merge_dicts` and `CombinePerKey` -/

theorem dictDisjoint_iff (a b : List (String × Int)) :
    dictDisjoint a b = true ↔ ∀ p ∈ a, ∀ q ∈ b, p.1 ≠ q.1 := by
  simp [dictDisjoint, List.all_eq_true]

theorem mergeGo_eq_some : ∀ (ds : List (List (String × Int)))
    (acc x : List (String × Int)),
    mergeGo acc ds = some x → x = acc ++ ds.flatten := by
  intro ds
  induction ds with
  | nil =>
    intro acc x h
    simp [mergeGo] at h
    simp [h.symm]
  | cons d rest ih =>
    intro acc x h
    simp only [mergeGo] at h
    by_cases hd : dictDisjoint acc d = true
    · rw [if_pos hd] at h
      have := ih (acc ++ d) x h
      simp [this, List.append_assoc]
    · rw [if_neg hd] at h
      exact absurd h (by simp)

theorem mergeGo_nodup : ∀ (ds : List (List (String × Int)))
    (acc x : List (String × Int)),
    (keysOf acc).Nodup → (∀ d ∈ ds, (keysOf d).Nodup) →
    mergeGo acc ds = some x → (keysOf x).Nodup := by
  intro ds
  induction ds with
  | nil =>
    intro acc x hacc _ h
    simp [mergeGo] at h
    rwa [← h]
  | cons d rest ih =>
    intro acc x hacc hds h
    simp only [mergeGo] at h
    by_cases hd : dictDisjoint acc d = true
    · rw [if_pos hd] at h
      refine ih (acc ++ d) x ?_ (fun e he => hds e (List.mem_cons_of_mem d he)) h
      have hdisj : List.Disjoint (keysOf acc) (keysOf d) := by
        intro k hka hkd
        obtain ⟨p, hp, hpk⟩ := List.mem_map.mp hka
        obtain ⟨q, hq, hqk⟩ := List.mem_map.mp hkd
        exact (dictDisjoint_iff acc d).mp hd p hp q hq (by rw [hpk, hqk])
      have : keysOf (acc ++ d) = keysOf acc ++ keysOf d := by
        simp [keysOf]
      rw [this]
      exact List.Nodup.append hacc (hds d (List.mem_cons_self d rest)) hdisj
    · rw [if_neg hd] at h
      exact absurd h (by simp)

theorem mergeGo_of_nodup : ∀ (ds : List (List (String × Int)))
    (acc : List (String × Int)),
    (keysOf (acc ++ ds.flatten)).Nodup → mergeGo acc ds = some (acc ++ ds.flatten) := by
  intro ds
  induction ds with
  | nil => intro acc _; simp [mergeGo]
  | cons d rest ih =>
    intro acc hn
    have hkeys : keysOf (acc ++ (d :: rest).flatten) =
        keysOf acc ++ (keysOf d ++ keysOf rest.flatten) := by
      simp [keysOf]
    rw [hkeys] at hn
    have hd : dictDisjoint acc d = true := by
      rw [dictDisjoint_iff]
      intro p hp q hq hpq
      have hpk : p.1 ∈ keysOf acc := List.mem_map.mpr ⟨p, hp, rfl⟩
      have hqk : q.1 ∈ keysOf d ++ keysOf rest.flatten :=
        List.mem_append_left _ (List.mem_map.mpr ⟨q, hq, rfl⟩)
      exact (List.disjoint_of_nodup_append hn) hpk (by rw [hpq]; exact hqk)
    simp only [mergeGo, hd, if_true]
    have hrearr : acc ++ (d :: rest).flatten = (acc ++ d) ++ rest.flatten := by
      simp [List.append_assoc]
    rw [hrearr]
    refine ih (acc ++ d) ?_
    have : keysOf ((acc ++ d) ++ rest.flatten) =
        (keysOf acc ++ keysOf d) ++ keysOf rest.flatten := by
      simp [keysOf]
    rw [this]
    rw [← List.append_assoc] at hn
    exact hn

theorem statsDicts_singleton (feats : List String) (records : List Ex) :
    ∀ d ∈ statsDicts feats records, ∃ k v, d = [(k, v)] := by
  intro d hd
  simp only [statsDicts, List.mem_append, List.mem_cons, List.mem_map,
    List.not_mem_nil, or_false, List.mem_singleton] at hd
  rcases hd with (h | ⟨p, _, hp⟩) | ⟨p, _, hp⟩
  · exact ⟨"examples", (records.length : Int), h⟩
  · exact ⟨p.1, p.2, hp.symm⟩
  · exact ⟨strReplaceTok p.1, p.2, hp.symm⟩

theorem statsDicts_nodup_each (feats : List String) (records : List Ex) :
    ∀ d ∈ statsDicts feats records, (keysOf d).Nodup := by
  intro d hd
  obtain ⟨k, v, hkv⟩ := statsDicts_singleton feats records d hd
  simp [hkv, keysOf]

theorem getStats_some_flatten (feats : List String) (records : List Ex)
    (d : List (String × Int)) (hok : getStats feats records = some d) :
    d = (statsDicts feats records).flatten ∧ (keysOf d).Nodup := by
  refine ⟨mergeGo_eq_some _ [] d hok, ?_⟩
  exact mergeGo_nodup _ [] d (by simp [keysOf]) (statsDicts_nodup_each feats records) hok

theorem alookup_of_mem_nodup {β : Type} : ∀ (l : List (String × β)) (k : String)
    (v : β), (k, v) ∈ l → (keysOf l).Nodup → alookup k l = some v := by
  intro l
  induction l with
  | nil => intro k v h _; simp at h
  | cons p ps ih =>
    intro k v hm hn
    have hn' : p.1 ∉ keysOf ps ∧ (keysOf ps).Nodup := by
      simpa [keysOf] using hn
    rcases List.mem_cons.mp hm with h | h
    · rw [← h]
      simp [alookup]
    · have hk : k ∈ keysOf ps := List.mem_map.mpr ⟨(k, v), h, rfl⟩
      have hne : p.1 ≠ k := fun he => hn'.1 (he ▸ hk)
      simp only [alookup, if_neg hne]
      exact ih k v h hn'.2

/-! ### Lemmas about `tokenPairs` and `perKey` -/

theorem tokensKey_inj (f g : String) (h : g ++ "_tokens" = f ++ "_tokens") :
    g = f := by
  apply String.ext
  have hd := congrArg String.data h
  rw [String.data_append, String.data_append] at hd
  exact List.append_cancel_right hd

theorem tokenPairs_cons (g : String) (gs : List String) (records : List Ex) :
    tokenPairs (g :: gs) records =
      (records.filterMap fun ex => (countTok g ex).map fun n => (g ++ "_tokens", n))
        ++ tokenPairs gs records := by
  simp [tokenPairs]

theorem tokenPairs_filter_not_mem (gs : List String) (records : List Ex)
    (f : String) (hf : f ∉ gs) :
    (tokenPairs gs records).filter (fun p => decide (p.1 = f ++ "_tokens")) = [] := by
  rw [List.filter_eq_nil_iff]
  intro p hp
  simp only [tokenPairs, List.mem_flatMap, List.mem_filterMap] at hp
  obtain ⟨g, hg, ex, _, hmap⟩ := hp
  obtain ⟨n, _, hpn⟩ := Option.map_eq_some'.mp hmap
  intro hkey
  rw [← hpn] at hkey
  simp only [decide_eq_true_eq] at hkey
  exact hf (tokensKey_inj f g hkey ▸ hg)

theorem filter_perFeat_self (records : List Ex) (f : String) :
    List.filter (fun p => decide (p.1 = f ++ "_tokens"))
        (records.filterMap fun ex => (countTok f ex).map fun n => (f ++ "_tokens", n)) =
      records.filterMap fun ex => (countTok f ex).map fun n => (f ++ "_tokens", n) := by
  rw [List.filter_eq_self]
  intro p hp
  obtain ⟨ex, _, hmap⟩ := List.mem_filterMap.mp hp
  obtain ⟨n, _, hpn⟩ := Option.map_eq_some'.mp hmap
  rw [← hpn]
  simp

theorem tokenPairs_filter (feats : List String) (records : List Ex) (f : String)
    (hnd : feats.Nodup) (hf : f ∈ feats) :
    (tokenPairs feats records).filter (fun p => decide (p.1 = f ++ "_tokens")) =
      records.filterMap fun ex => (countTok f ex).map fun n => (f ++ "_tokens", n) := by
  induction feats with
  | nil => simp at hf
  | cons g gs ih =>
    rw [tokenPairs_cons, List.filter_append]
    rcases List.mem_cons.mp hf with h | h
    · subst h
      rw [filter_perFeat_self,
        tokenPairs_filter_not_mem gs records f (List.nodup_cons.mp hnd).1,
        List.append_nil]
    · have hgf : g ≠ f := fun he => (List.nodup_cons.mp hnd).1 (he ▸ h)
      have hleft : List.filter (fun p => decide (p.1 = f ++ "_tokens"))
          (records.filterMap fun ex =>
            (countTok g ex).map fun n => (g ++ "_tokens", n)) = [] := by
        rw [List.filter_eq_nil_iff]
        intro p hp
        obtain ⟨ex, _, hmap⟩ := List.mem_filterMap.mp hp
        obtain ⟨n, _, hpn⟩ := Option.map_eq_some'.mp hmap
        rw [← hpn]
        simp only [decide_eq_true_eq]
        exact fun hk => hgf (tokensKey_inj f g hk)
      rw [hleft, List.nil_append]
      exact ih (List.nodup_cons.mp hnd).2 h

theorem pairs_snd_map (records : List Ex) (f key : String)
    (hall : ∀ ex ∈ records, (countTok f ex).isSome) :
    (records.filterMap fun ex => (countTok f ex).map fun n => (key, n)).map
        Prod.snd = records.map (numTokens f) := by
  induction records with
  | nil => rfl
  | cons ex rest ih =>
    obtain ⟨n, hn⟩ := Option.isSome_iff_exists.mp
      (hall ex (List.mem_cons_self ex rest))
    rw [List.filterMap_cons, hn]
    simp only [Option.map_some']
    rw [List.map_cons, List.map_cons,
      ih (fun e he => hall e (List.mem_cons_of_mem ex he))]
    simp [numTokens, hn]

theorem tokensKey_mem (feats : List String) (records : List Ex) (f : String)
    (hf : f ∈ feats) (ex : Ex) (hex : ex ∈ records)
    (hs : (countTok f ex).isSome) :
    (f ++ "_tokens") ∈ dedupKeys (tokenPairs feats records) := by
  rw [dedupKeys, List.mem_dedup]
  obtain ⟨n, hn⟩ := Option.isSome_iff_exists.mp hs
  refine List.mem_map.mpr ⟨(f ++ "_tokens", n), ?_, rfl⟩
  simp only [tokenPairs, List.mem_flatMap]
  exact ⟨f, hf, List.mem_filterMap.mpr ⟨ex, hex, by rw [hn]; rfl⟩⟩

theorem perKey_mem (comb : List Int → Int) (l : List (String × Int)) (k : String)
    (hk : k ∈ dedupKeys l) :
    (k, comb ((l.filter fun p => decide (p.1 = k)).map Prod.snd)) ∈
      perKey comb l :=
  List.mem_map.mpr ⟨k, hk, rfl⟩

theorem flatten_map_box (l : List (String × Int)) :
    (l.map fun p => [p]).flatten = l := by
  induction l with
  | nil => rfl
  | cons p ps ih => simp [ih]

theorem flatten_map_box_rename (l : List (String × Int)) :
    (l.map fun p => [(strReplaceTok p.1, p.2)]).flatten =
      l.map fun p => (strReplaceTok p.1, p.2) := by
  induction l with
  | nil => rfl
  | cons p ps ih => simp [ih]

theorem statsDicts_flatten (feats : List String) (records : List Ex) :
    (statsDicts feats records).flatten =
      ("examples", (records.length : Int)) ::
        (perKey pySum (tokenPairs feats records) ++
          (perKey pyMax (tokenPairs feats records)).map
            fun p => (strReplaceTok p.1, p.2)) := by
  show ([[("examples", (records.length : Int))]]
      ++ ((perKey pySum (tokenPairs feats records)).map fun p => [p])
      ++ ((perKey pyMax (tokenPairs feats records)).map fun p =>
            [(strReplaceTok p.1, p.2)])).flatten = _
  rw [List.flatten_append, List.flatten_append, flatten_map_box,
    flatten_map_box_rename]
  simp

/-! ### The Python `sum` and `max` combiners agree with their
mathematical specifications -/

theorem foldl_max_init_le : ∀ (l : List Int) (a : Int), a ≤ l.foldl max a := by
  intro l
  induction l with
  | nil => intro a; exact le_rfl
  | cons b bs ih => intro a; exact le_trans (le_max_left a b) (ih (max a b))

theorem foldl_max_mem : ∀ (l : List Int) (a : Int),
    l.foldl max a = a ∨ l.foldl max a ∈ l := by
  intro l
  induction l with
  | nil => intro a; left; rfl
  | cons b bs ih =>
    intro a
    rcases ih (max a b) with h | h
    · rcases max_choice a b with hm | hm
      · left; rw [List.foldl_cons, h, hm]
      · right; rw [List.foldl_cons, h, hm]; exact List.mem_cons_self b bs
    · right; exact List.mem_cons_of_mem b h

theorem foldl_max_le_of_mem : ∀ (l : List Int) (a x : Int),
    x ∈ l → x ≤ l.foldl max a := by
  intro l
  induction l with
  | nil => intro a x h; simp at h
  | cons b bs ih =>
    intro a x h
    rcases List.mem_cons.mp h with rfl | h
    · exact le_trans (le_max_right a x) (foldl_max_init_le bs (max a x))
    · exact ih (max a b) x h

theorem pyMax_mem (l : List Int) (h : l ≠ []) : pyMax l ∈ l := by
  cases l with
  | nil => exact absurd rfl h
  | cons v vs =>
    rcases foldl_max_mem vs v with hm | hm
    · rw [pyMax, hm]; exact List.mem_cons_self v vs
    · exact List.mem_cons_of_mem v (by rw [pyMax]; exact hm)

theorem le_pyMax (l : List Int) (x : Int) (h : x ∈ l) : x ≤ pyMax l := by
  cases l with
  | nil => simp at h
  | cons v vs =>
    rcases List.mem_cons.mp h with rfl | h
    · exact foldl_max_init_le vs x
    · exact foldl_max_le_of_mem vs v x h

theorem foldl_add_eq (l : List Int) : ∀ a : Int, l.foldl (· + ·) a = a + l.sum := by
  induction l with
  | nil => intro a; simp
  | cons b bs ih => intro a; simp [ih (a + b), add_assoc]

theorem pySum_eq_sum (l : List Int) : pySum l = l.sum := by
  rw [pySum, foldl_add_eq]
  simp

/-- C1 (as frozen) is refuted by a feature literally named `"tokens"`: its
value is an integer array in every record, yet the statistics dictionary
carries the maximum under `"max_tokens_max_tokens"` (the rename replaces
every occurrence of `"tokens"`), and the claimed key
`"tokens_max_tokens"` is absent. -/
theorem C1_counterexample :
    getStats ["tokens"] [[("tokens", Val.intArr "int32" [2, 2])]] =
      some [("examples", 1), ("tokens_tokens", 2), ("max_tokens_max_tokens", 2)] ∧
    alookup "tokens_max_tokens"
      [("examples", (1 : Int)), ("tokens_tokens", 2),
        ("max_tokens_max_tokens", 2)] = none := by
  decide

/-- C1 (amended): for a nonempty split, a duplicate-free declared feature
list (output features form a mapping in the source), and a feature `f`
whose name does not contain `"tokens"` and whose value is an int32/int64
array in every record, any statistics dictionary that `GetStats` produces
(that is, whenever the `_merge_dicts` assertion passes) maps
`f ++ "_tokens"` to the sum over all records of the count of elements
greater than 1, `f ++ "_max_tokens"` to the maximum of that per-record
count, and `"examples"` to the record count. -/
theorem C1_stats_amended (feats : List String) (f : String) (records : List Ex)
    (d : List (String × Int))
    (hnd : feats.Nodup) (hf : f ∈ feats) (hne : records ≠ [])
    (hall : ∀ ex ∈ records, (countTok f ex).isSome)
    (hfree : containsTok f.data = false)
    (hok : getStats feats records = some d) :
    alookup (f ++ "_tokens") d = some (pySum (records.map (numTokens f))) ∧
    alookup (f ++ "_max_tokens") d = some (pyMax (records.map (numTokens f))) ∧
    alookup "examples" d = some (records.length : Int) := by
  obtain ⟨hdf, hdn⟩ := getStats_some_flatten feats records d hok
  obtain ⟨ex0, hex0⟩ := List.exists_mem_of_ne_nil records hne
  have hvals : ((tokenPairs feats records).filter
      fun p => decide (p.1 = f ++ "_tokens")).map Prod.snd =
      records.map (numTokens f) := by
    rw [tokenPairs_filter feats records f hnd hf,
      pairs_snd_map records f (f ++ "_tokens") hall]
  have hkmem : (f ++ "_tokens") ∈ dedupKeys (tokenPairs feats records) :=
    tokensKey_mem feats records f hf ex0 hex0 (hall ex0 hex0)
  have hsum_mem : (f ++ "_tokens", pySum (records.map (numTokens f))) ∈ d := by
    rw [hdf, statsDicts_flatten]
    refine List.mem_cons_of_mem _ (List.mem_append_left _ ?_)
    have hh := perKey_mem pySum (tokenPairs feats records) (f ++ "_tokens") hkmem
    rwa [hvals] at hh
  have hmax_mem : (f ++ "_max_tokens", pyMax (records.map (numTokens f))) ∈ d := by
    rw [hdf, statsDicts_flatten]
    refine List.mem_cons_of_mem _ (List.mem_append_right _ ?_)
    have h1 := perKey_mem pyMax (tokenPairs feats records) (f ++ "_tokens") hkmem
    rw [hvals] at h1
    have h2 : (strReplaceTok (f ++ "_tokens"), pyMax (records.map (numTokens f))) ∈
        (perKey pyMax (tokenPairs feats records)).map
          fun p => (strReplaceTok p.1, p.2) :=
      List.mem_map.mpr ⟨_, h1, rfl⟩
    rwa [strReplaceTok_tokens_key f hfree] at h2
  have hex_mem : ("examples", (records.length : Int)) ∈ d := by
    rw [hdf, statsDicts_flatten]
    exact List.mem_cons_self _ _
  exact ⟨alookup_of_mem_nodup d _ _ hsum_mem hdn,
    alookup_of_mem_nodup d _ _ hmax_mem hdn,
    alookup_of_mem_nodup d _ _ hex_mem hdn⟩

/-- The three records of the spec's worked statistics example. -/
def exRecords3 : List Ex :=
  [[("f", Val.intArr "int32" [2, 2, 1])],
   [("f", Val.intArr "int32" [2, 1, 1])],
   [("f", Val.intArr "int32" [2, 2, 2])]]

/-- The statistics dictionary `GetStats` computes for `exRecords3`. -/
def exStats3 : List (String × Int) :=
  [("examples", 3), ("f_tokens", 6), ("f_max_tokens", 3)]

theorem C1_stats_witness :
    alookup "f_tokens" exStats3 = some 6 ∧
    alookup "f_max_tokens" exStats3 = some 3 ∧
    alookup "examples" exStats3 = some 3 := by
  obtain ⟨h1, h2, h3⟩ := C1_stats_amended ["f"] "f" exRecords3 exStats3
    (by decide) (by decide) (by decide) (by decide) (by decide) (by decide)
  refine ⟨?_, ?_, ?_⟩
  · rw [(by decide : ("f" ++ "_tokens" : String) = "f_tokens")] at h1
    rw [h1]; decide
  · rw [(by decide : ("f" ++ "_max_tokens" : String) = "f_max_tokens")] at h2
    rw [h2]; decide
  · rw [h3]; decide

/-- Keys of a flattened dict list split per dict. -/
theorem keysOf_flatten (ds : List (List (String × Int))) :
    keysOf ds.flatten = (ds.map keysOf).flatten := by
  induction ds with
  | nil => rfl
  | cons d rest ih =>
    simp only [List.flatten_cons, List.map_cons]
    show List.map Prod.fst (d ++ rest.flatten) =
      keysOf d ++ (List.map keysOf rest).flatten
    rw [List.map_append, ← ih]
    rfl

/-- C8: `_merge_dicts` asserts key-disjointness of the merged singleton
dictionaries. When the statistic keys generated for a task are pairwise
distinct the assertion never fires and the merge returns their union; on
any key overlap the merge fails (modelled as `none`), aborting the task,
rather than silently overwriting. -/
theorem C8_merge_assert (feats : List String) (records : List Ex) :
    (((statsDicts feats records).map keysOf).flatten.Nodup →
      getStats feats records = some (statsDicts feats records).flatten) ∧
    (¬ ((statsDicts feats records).map keysOf).flatten.Nodup →
      getStats feats records = none) := by
  constructor
  · intro hnd
    have := mergeGo_of_nodup (statsDicts feats records) []
    rw [List.nil_append] at this
    exact this (by rw [keysOf_flatten]; exact hnd)
  · intro hnd
    cases hstat : getStats feats records with
    | none => rfl
    | some x =>
      exfalso
      obtain ⟨hx, hk⟩ := getStats_some_flatten feats records x hstat
      rw [hx, keysOf_flatten] at hk
      exact hnd hk

theorem C8_merge_witness :
    getStats ["f"] [[("f", Val.intArr "int32" [2])]] =
      some [("examples", 1), ("f_tokens", 1), ("f_max_tokens", 1)] := by
  have h := (C8_merge_assert ["f"] [[("f", Val.intArr "int32" [2])]]).1 (by decide)
  rw [h]
  decide

/-- C10: the maximum-statistic key is the sum-statistic key with every
occurrence of `"tokens"` replaced by `"max_tokens"`. For a feature name
free of `"tokens"` this yields `f ++ "_max_tokens"`; for the feature named
`"tokens"` the key becomes `"max_tokens_max_tokens"`, and
`"tokens_max_tokens"` is never produced. -/
theorem C10_max_key_rename :
    (∀ f : String, containsTok f.data = false →
      strReplaceTok (f ++ "_tokens") = f ++ "_max_tokens") ∧
    strReplaceTok ("tokens" ++ "_tokens") = "max_tokens_max_tokens" ∧
    (getStats ["tokens"] [[("tokens", Val.intArr "int64" [5, 0])]]).map
      (fun d => alookup "max_tokens_max_tokens" d) = some (some 1) ∧
    (getStats ["tokens"] [[("tokens", Val.intArr "int64" [5, 0])]]).map
      (fun d => alookup "tokens_max_tokens" d) = some none := by
  exact ⟨strReplaceTok_tokens_key, by decide, by decide, by decide⟩

theorem C10_witness : strReplaceTok "inputs_tokens" = "inputs_max_tokens" := by
  have h := C10_max_key_rename.1 "inputs" (by decide)
  rw [(by decide : ("inputs" ++ "_tokens" : String) = "inputs_tokens")] at h
  rw [(by decide : ("inputs" ++ "_max_tokens" : String) = "inputs_max_tokens")] at h
  exact h

/-! ### Lemmas about the task-selection regexes -/

theorem rmatchF_nil_nil (n : Nat) : rmatchF n [] [] = true := by
  cases n <;> rfl

theorem rmatchF_nil_cons (n : Nat) (c : Char) (cs : List Char) :
    rmatchF n [] (c :: cs) = false := by
  cases n <;> rfl

theorem rmatchF_star (n : Nat) (a : RAtom) (ps : List RPiece) (cs : List Char) :
    rmatchF (n + 1) (RPiece.rstar a :: ps) cs =
      (rmatchF n ps cs ||
        (match cs with
         | [] => false
         | c :: cs2 => atomMatches a c && rmatchF n (RPiece.rstar a :: ps) cs2)) :=
  rfl

theorem rmatchF_dotstar : ∀ (n : Nat) (cs : List Char), cs.length + 2 ≤ n →
    (rmatchF n [RPiece.rstar RAtom.rdot] cs = true ↔ '\n' ∉ cs) := by
  intro n
  induction n with
  | zero => intro cs h; omega
  | succ n ih =>
    intro cs h
    rw [rmatchF_star]
    cases cs with
    | nil => simp [rmatchF_nil_nil]
    | cons c cs2 =>
      rw [rmatchF_nil_cons]
      simp only [Bool.false_or, Bool.and_eq_true]
      rw [ih cs2 (by simp only [List.length_cons] at h; omega)]
      simp only [atomMatches, Bool.not_eq_true', beq_eq_false_iff_ne, ne_eq,
        List.mem_cons, not_or]
      constructor
      · rintro ⟨hc, hcs⟩
        exact ⟨fun he => hc he.symm, hcs⟩
      · rintro ⟨hc, hcs⟩
        exact ⟨fun he => hc he.symm, hcs⟩

theorem rmatch_dotstar (cs : List Char) :
    rmatch [RPiece.rstar RAtom.rdot] cs = true ↔ '\n' ∉ cs := by
  rw [rmatch]
  exact rmatchF_dotstar _ cs (by simp; omega)

theorem string_data_eq_nil (t : String) : t.data = [] ↔ t = "" := by
  constructor
  · intro h
    exact String.ext h
  · intro h
    rw [h]

theorem matchJoined_iff (pats : List String) (t : String) (h : pats ≠ []) :
    matchJoined (pats.map fun q => parsePat q.data) t.data = true ↔
      ∃ q ∈ pats, rmatch (parsePat q.data) t.data = true := by
  cases pats with
  | nil => exact absurd rfl h
  | cons p ps =>
    rw [List.map_cons]
    have hm : matchJoined (parsePat p.data :: ps.map fun q => parsePat q.data)
        t.data =
        ((parsePat p.data :: ps.map fun q => parsePat q.data).any
          fun r => rmatch r t.data) := rfl
    rw [hm, List.any_eq_true]
    constructor
    · rintro ⟨r, hr, hmr⟩
      rcases List.mem_cons.mp hr with rfl | hr
      · exact ⟨p, List.mem_cons_self p ps, hmr⟩
      · obtain ⟨q, hq, rfl⟩ := List.mem_map.mp hr
        exact ⟨q, List.mem_cons_of_mem p hq, hmr⟩
    · rintro ⟨q, hq, hmr⟩
      rcases List.mem_cons.mp hq with rfl | hq
      · exact ⟨parsePat q.data, List.mem_cons_self _ _, hmr⟩
      · exact ⟨parsePat q.data,
          List.mem_cons_of_mem _ (List.mem_map.mpr ⟨q, hq, rfl⟩), hmr⟩

/-- C3: counterexample. With both pattern lists empty/None, the source
builds the exclude regex `(\Z)`, which `re.match` accepts on the empty
string, so a task named `""` is excluded even though the claim says an
empty exclude list matches no task: `run_pipeline` selects nothing from a
registry containing the empty-named task. -/
theorem C3_counterexample :
    selectTasks [""] none none = [] ∧ "" ∉ selectTasks [""] none none := by
  decide

/-- C3 (amended): selection keeps exactly the registered names matched by
some include pattern and no exclude pattern, exclusion taking precedence.
A None/empty include list matches every task name containing no newline
character (the default pattern is `.*`, and `.` does not match a newline);
a None/empty exclude list matches only the empty task name (the joined
pattern degenerates to `(\Z)`). For registered tasks {a, a_2, b} with
include `a*` and exclude `a_2`, exactly {a} is selected. -/
theorem C3_selection_amended :
    (∀ (registry : List String) (inc exc : List String) (t : String),
      inc ≠ [] → exc ≠ [] →
      (t ∈ selectTasks registry (some inc) (some exc) ↔
        t ∈ registry ∧ (∃ p ∈ inc, rmatch (parsePat p.data) t.data = true) ∧
          ¬ ∃ p ∈ exc, rmatch (parsePat p.data) t.data = true)) ∧
    (∀ (registry : List String) (t : String),
      t ∈ selectTasks registry none none ↔
        t ∈ registry ∧ '\n' ∉ t.data ∧ t ≠ "") ∧
    selectTasks ["a", "a_2", "b"] (some ["a*"]) (some ["a_2"]) = ["a"] := by
  refine ⟨?_, ?_, by decide⟩
  · intro registry inc exc t hinc hexc
    rw [selectTasks, List.mem_filter]
    have hts : taskSelected (some inc) (some exc) t =
        (matchJoined (inc.map fun q => parsePat q.data) t.data &&
          !(matchJoined (exc.map fun q => parsePat q.data) t.data)) := by
      cases inc with
      | nil => exact absurd rfl hinc
      | cons p ps => rfl
    rw [hts, Bool.and_eq_true, Bool.not_eq_true']
    have hneg : matchJoined (exc.map fun q => parsePat q.data) t.data = false ↔
        ¬ ∃ q ∈ exc, rmatch (parsePat q.data) t.data = true := by
      rw [← matchJoined_iff exc t hexc]
      cases matchJoined (exc.map fun q => parsePat q.data) t.data <;> simp
    rw [hneg, matchJoined_iff inc t hinc]
  · intro registry t
    rw [selectTasks, List.mem_filter]
    have hdot : parsePat (String.data ".*") = [RPiece.rstar RAtom.rdot] := by
      decide
    have hsel : taskSelected none none t = true ↔
        (rmatch [RPiece.rstar RAtom.rdot] t.data = true ∧ ¬ t.data = []) := by
      show (matchJoined ((effIncludes none).map fun q => parsePat q.data) t.data &&
          !(matchJoined ((effExcludes none).map fun q => parsePat q.data) t.data)) =
            true ↔ _
      rw [show effIncludes none = [".*"] from rfl,
        show effExcludes none = ([] : List String) from rfl,
        List.map_cons, List.map_nil, hdot]
      have h1 : matchJoined [[RPiece.rstar RAtom.rdot]] t.data =
          (rmatch [RPiece.rstar RAtom.rdot] t.data || List.any [] fun r =>
            rmatch r t.data) := rfl
      have h2 : matchJoined [] t.data = decide (t.data = []) := rfl
      rw [h1, h2]
      simp
    rw [hsel, rmatch_dotstar, string_data_eq_nil]

theorem C3_selection_witness :
    "a" ∈ selectTasks ["a", "b"] (some ["a"]) (some ["b"]) := by
  refine ((C3_selection_amended.1 ["a", "b"] ["a"] ["b"] "a"
    (by decide) (by decide)).mpr ⟨by decide, ⟨"a", by decide, by decide⟩, ?_⟩)
  rintro ⟨p, hp, hm⟩
  rw [List.mem_singleton.mp hp] at hm
  revert hm
  decide

/-- C9: the include/exclude patterns are matched anchored at both ends
(`re.match` plus the appended `\Z`): a task is selected by a single
include pattern only if the pattern matches the entire name. Hence
pattern `a` does not select task `ab`, and pattern `a*` (zero or more
`a`s) does not select `a_2`, while `a` selects `a`. -/
theorem C9_full_match_anchored :
    (∀ p t : String, t ∈ selectTasks [t] (some [p]) none →
      rmatch (parsePat p.data) t.data = true) ∧
    selectTasks ["ab"] (some ["a"]) none = [] ∧
    selectTasks ["a_2"] (some ["a*"]) none = [] ∧
    selectTasks ["a"] (some ["a"]) none = ["a"] := by
  refine ⟨?_, by decide, by decide, by decide⟩
  intro p t h
  have h1 := (List.mem_filter.mp h).2
  simp only [taskSelected, Bool.and_eq_true] at h1
  have h2 := h1.1
  simp only [effIncludes, List.map_cons, List.map_nil, matchJoined,
    List.any_cons, List.any_nil, Bool.or_false] at h2
  exact h2

theorem C9_witness : rmatch (parsePat "a".data) "a".data = true :=
  C9_full_match_anchored.1 "a" "a" (by decide)

/-! ### Lemmas about the `run_pipeline` planning loop -/

theorem runPipeline_append (dirName : String → String) (pre post : List CTask)
    (cacheRoot : String) (overwrite : Bool) (contents : String) :
    runPipeline dirName (pre ++ post) cacheRoot overwrite contents =
      ((runPipeline dirName pre cacheRoot overwrite contents).1 ++
        (runPipeline dirName post cacheRoot overwrite contents).1,
       (runPipeline dirName pre cacheRoot overwrite contents).2 ++
        (runPipeline dirName post cacheRoot overwrite contents).2) := by
  simp [runPipeline]

/-- C4: a task whose discovered cache directory is set but differs from the
requested output directory is, under `overwrite = true`, skipped outright:
it contributes no output directory and no file action (no deletion, no
write at either directory), and removing it from the registry leaves the
whole plan unchanged. -/
theorem C4_overwrite_conflict (dirName : String → String)
    (cacheRoot contents : String) (t : CTask) (d : String)
    (hc : t.cacheDir = some d) (hne : d ≠ pathJoin cacheRoot (dirName t.name)) :
    processTask dirName cacheRoot true contents t = (none, []) ∧
    ∀ pre post : List CTask,
      runPipeline dirName (pre ++ t :: post) cacheRoot true contents =
        runPipeline dirName (pre ++ post) cacheRoot true contents := by
  have hpt : processTask dirName cacheRoot true contents t = (none, []) := by
    rw [processTask]
    cases hsc : t.supportsCaching with
    | false => simp
    | true =>
      simp only [Bool.true_eq_false, if_false, hc]
      rw [if_neg hne]
  refine ⟨hpt, fun pre post => ?_⟩
  rw [runPipeline_append, runPipeline_append]
  have hmid : runPipeline dirName (t :: post) cacheRoot true contents =
      runPipeline dirName post cacheRoot true contents := by
    simp [runPipeline, hpt]
  rw [hmid]

theorem C4_witness :
    processTask (fun n => n) "root" true ""
      ⟨"x", true, some "elsewhere/x", ["train"]⟩ = (none, []) ∧
    ∀ pre post : List CTask,
      runPipeline (fun n => n)
          (pre ++ ⟨"x", true, some "elsewhere/x", ["train"]⟩ :: post)
          "root" true "" =
        runPipeline (fun n => n) (pre ++ post) "root" true "" :=
  C4_overwrite_conflict (fun n => n) "root" ""
    ⟨"x", true, some "elsewhere/x", ["train"]⟩ "elsewhere/x" rfl (by decide)

/-- C5: counterexample. A task with zero splits whose discovered cache
directory equals the requested output directory is, under
`overwrite = true`, excluded from the output list, yet `run_pipeline`
deletes its cache directory: the source performs `tf.io.gfile.rmtree`
before it reaches the `if not task.splits` check, contradicting the
claim that no file of a zero-split task is ever deleted. -/
theorem C5_counterexample :
    (processTask (fun n => n) "root" true ""
      ⟨"x", true, some "root/x", []⟩).1 = none ∧
    (processTask (fun n => n) "root" true ""
      ⟨"x", true, some "root/x", []⟩).2 = [FAction.rmtree "root/x"] ∧
    FAction.rmtree "root/x" ∈
      (runPipeline (fun n => n) [⟨"x", true, some "root/x", []⟩]
        "root" true "").2 := by
  refine ⟨?_, ?_, ?_⟩ <;> decide

/-- C5 (amended): a task with zero splits is always excluded from the
returned output-directory list, and no file of it is touched — except
that when its discovered cache directory equals the requested output
directory and `overwrite` is true, that directory has already been
deleted by the time the zero-splits check skips the task. -/
theorem C5_zero_splits_amended (dirName : String → String)
    (cacheRoot contents : String) (overwrite : Bool) (t : CTask)
    (h0 : t.splits = []) :
    (processTask dirName cacheRoot overwrite contents t).1 = none ∧
    ((processTask dirName cacheRoot overwrite contents t).2 = [] ∨
      (overwrite = true ∧
        t.cacheDir = some (pathJoin cacheRoot (dirName t.name)) ∧
        (processTask dirName cacheRoot overwrite contents t).2 =
          [FAction.rmtree (pathJoin cacheRoot (dirName t.name))])) := by
  rw [processTask]
  cases hsc : t.supportsCaching with
  | false => simp
  | true =>
    simp only [Bool.true_eq_false, if_false]
    cases hcd : t.cacheDir with
    | none => simp [h0]
    | some d =>
      cases hov : overwrite with
      | false => simp
      | true =>
        simp only [Bool.true_eq_false, if_false, if_true]
        by_cases hd : d = pathJoin cacheRoot (dirName t.name)
        · subst hd
          simp [h0]
        · simp [hd]

/-! ### Lemmas about the completion dataflow graph -/

theorem respectsGo_append (splits : List String) :
    ∀ (xs ys done : List CNode),
    respectsGo splits done (xs ++ ys) =
      (respectsGo splits done xs && respectsGo splits (done ++ xs) ys) := by
  intro xs
  induction xs with
  | nil =>
    intro ys done
    simp [respectsGo]
  | cons n rest ih =>
    intro ys done
    simp only [List.cons_append, respectsGo, List.append_eq]
    rw [ih ys (done ++ [n])]
    rw [Bool.and_assoc]
    rw [show done ++ n :: rest = (done ++ [n]) ++ rest by simp]

theorem respectsGo_deps (splits : List String) :
    ∀ (trace done pre post : List CNode) (n : CNode),
    respectsGo splits done trace = true → trace = pre ++ n :: post →
    ∀ d ∈ nodeDeps splits n, d ∈ done ++ pre := by
  intro trace
  induction trace with
  | nil =>
    intro done pre post n _ heq
    exact absurd heq (by simp)
  | cons m rest ih =>
    intro done pre post n hr heq
    simp only [respectsGo, Bool.and_eq_true] at hr
    cases pre with
    | nil =>
      simp only [List.nil_append, List.cons.injEq] at heq
      obtain ⟨rfl, rfl⟩ := heq
      intro d hd
      have hall := hr.1
      rw [List.all_eq_true] at hall
      have := hall d hd
      simpa using this
    | cons p pre' =>
      simp only [List.cons_append, List.cons.injEq] at heq
      obtain ⟨rfl, heq'⟩ := heq
      intro d hd
      have hmem := ih (done ++ [m]) pre' post n hr.2 heq' d hd
      rw [List.append_assoc] at hmem
      simpa using hmem

theorem respectsGo_sinks (splits : List String) :
    ∀ (sp2 : List String) (done : List CNode),
    respectsGo sp2 done (completionSinks splits) = true := by
  induction splits with
  | nil => intro sp2 done; rfl
  | cons s rest ih =>
    intro sp2 done
    show respectsGo sp2 done
      ([CNode.sinkRecord s, CNode.sinkInfo s, CNode.sinkStats s] ++
        completionSinks rest) = true
    rw [respectsGo_append]
    rw [Bool.and_eq_true]
    exact ⟨by simp [respectsGo, nodeDeps], ih sp2 _⟩

theorem completeTrace_runs (splits : List String) :
    respectsDeps splits (completeTrace splits) = true := by
  rw [respectsDeps, completeTrace, respectsGo_append, Bool.and_eq_true]
  refine ⟨respectsGo_sinks splits splits [], ?_⟩
  rw [List.nil_append]
  simp only [respectsGo, nodeDeps, Bool.and_eq_true, List.all_eq_true]
  refine ⟨fun d hd => by simpa using hd, ?_, ?_, trivial⟩
  · intro d hd
    rw [List.mem_singleton] at hd
    subst hd
    simp
  · intro d hd
    rw [List.mem_singleton] at hd
    subst hd
    simp

/-- C2: within one task's pipeline as wired by `run_pipeline`, in every
dependency-respecting execution the COMPLETED-marker write can only occur
after the record, info and stats sink completions of every split; in a
run where any of those sinks never completed, the marker is never written;
and the marker body written by `WriteToText` over the emptied completion
collection is exactly the caller-supplied `completed_file_contents`, with
no trailing line terminator appended. -/
theorem C2_completion_marker (splits : List String) (trace : List CNode)
    (contents : String) (vals : List String)
    (hrun : respectsDeps splits trace = true) :
    (∀ pre post, trace = pre ++ CNode.writeCompleted :: post →
      ∀ s ∈ splits, CNode.sinkRecord s ∈ pre ∧ CNode.sinkInfo s ∈ pre ∧
        CNode.sinkStats s ∈ pre) ∧
    ((∃ s ∈ splits, CNode.sinkRecord s ∉ trace ∨ CNode.sinkInfo s ∉ trace ∨
        CNode.sinkStats s ∉ trace) → CNode.writeCompleted ∉ trace) ∧
    writeToTextContent contents (discardAll vals) false = contents := by
  have hkey : ∀ pre post, trace = pre ++ CNode.writeCompleted :: post →
      ∀ s ∈ splits, CNode.sinkRecord s ∈ pre ∧ CNode.sinkInfo s ∈ pre ∧
        CNode.sinkStats s ∈ pre := by
    intro pre post heq s hs
    have hfil : CNode.filterCompletion ∈ pre := by
      have hh := respectsGo_deps splits trace [] pre post CNode.writeCompleted
        hrun heq CNode.filterCompletion (by simp [nodeDeps])
      simpa using hh
    obtain ⟨pre1, pre2, rfl⟩ := List.append_of_mem hfil
    have heq2 : trace = pre1 ++ CNode.filterCompletion ::
        (pre2 ++ CNode.writeCompleted :: post) := by
      rw [heq]
      simp
    have hflat : CNode.flattenCompletion ∈ pre1 := by
      have hh := respectsGo_deps splits trace [] pre1 _ CNode.filterCompletion
        hrun heq2 CNode.flattenCompletion (by simp [nodeDeps])
      simpa using hh
    obtain ⟨pre3, pre4, rfl⟩ := List.append_of_mem hflat
    have heq3 : trace = pre3 ++ CNode.flattenCompletion ::
        (pre4 ++ CNode.filterCompletion ::
          (pre2 ++ CNode.writeCompleted :: post)) := by
      rw [heq2]
      simp
    have hsinks := respectsGo_deps splits trace [] pre3 _
      CNode.flattenCompletion hrun heq3
    have hsub : ∀ x : CNode, x ∈ pre3 →
        x ∈ (pre3 ++ CNode.flattenCompletion :: pre4) ++
          CNode.filterCompletion :: pre2 :=
      fun x hx => List.mem_append_left _ (List.mem_append_left _ hx)
    refine ⟨hsub _ ?_, hsub _ ?_, hsub _ ?_⟩
    · have := hsinks (CNode.sinkRecord s)
        (List.mem_flatMap.mpr ⟨s, hs, by simp⟩)
      simpa using this
    · have := hsinks (CNode.sinkInfo s)
        (List.mem_flatMap.mpr ⟨s, hs, by simp⟩)
      simpa using this
    · have := hsinks (CNode.sinkStats s)
        (List.mem_flatMap.mpr ⟨s, hs, by simp⟩)
      simpa using this
  refine ⟨hkey, ?_, ?_⟩
  · rintro ⟨s, hs, hmiss⟩ hmem
    obtain ⟨pre, post, heq⟩ := List.append_of_mem hmem
    have hsnk := hkey pre post heq s hs
    rw [heq] at hmiss
    rcases hmiss with h | h | h
    · exact h (List.mem_append_left _ hsnk.1)
    · exact h (List.mem_append_left _ hsnk.2.1)
    · exact h (List.mem_append_left _ hsnk.2.2)
  · have hd : discardAll vals = [] := by simp [discardAll]
    rw [writeToTextContent, hd]
    apply String.ext
    simp [String.data_append, String.join]

theorem C2_completion_witness :
    writeToTextContent "body" (discardAll ["x", "y"]) false = "body" :=
  (C2_completion_marker ["train"] (completeTrace ["train"]) "body" ["x", "y"]
    (by decide)).2.2

theorem tokenPairs_nil (feats : List String) : tokenPairs feats [] = [] := by
  induction feats with
  | nil => rfl
  | cons g gs ih =>
    rw [tokenPairs_cons, ih]
    rfl

/-- C7: a split that produced zero records still completes normally: the
statistics dictionary is exactly `{"examples": 0}` (no token keys), the
info transform returns the empty mapping (its one-record sample is empty),
and the completion graph still admits a full dependency-respecting run
that writes the COMPLETED marker, since nothing in it depends on record
counts. -/
theorem C7_empty_split (feats : List String) (numShards : Nat) :
    getStats feats [] = some [("examples", 0)] ∧
    getInfo numShards [] = InfoOut.emptyInfo ∧
    ∀ splits : List String, respectsDeps splits (completeTrace splits) = true ∧
      CNode.writeCompleted ∈ completeTrace splits := by
  refine ⟨?_, rfl, fun splits =>
    ⟨completeTrace_runs splits, by simp [completeTrace]⟩⟩
  have h2 : statsDicts feats [] = [[("examples", (0 : Int))]] := by
    simp [statsDicts, tokenPairs_nil, perKey, dedupKeys]
  show mergeDicts (statsDicts feats []) = some [("examples", 0)]
  rw [h2]
  rfl

/-! ### Lemmas about the per-shard record cap -/

theorem cycleTake_length {α : Type} (full : List α) (hne : full ≠ []) :
    ∀ (n : Nat) (cur : List α), (cycleTake full n cur).length = n := by
  intro n
  induction n with
  | zero => intro cur; rfl
  | succ n ih =>
    intro cur
    cases cur with
    | nil =>
      cases full with
      | nil => exact absurd rfl hne
      | cons c cs => simp [cycleTake, ih]
    | cons c cs => simp [cycleTake, ih]

theorem repeatTake_length_nil {α : Type} (n : Nat) :
    (repeatTake ([] : List α) n).length = 0 := by
  cases n <;> rfl

theorem repeatTake_length_of_ne {α : Type} (l : List α) (n : Nat) (h : l ≠ []) :
    (repeatTake l n).length = n :=
  cycleTake_length l h n l

/-- C6: counterexample. One shard whose underlying stream is empty, cap 4:
`repeat().take(4)` of an empty stream is empty, so the split emits 0
records while the claim predicts `shardCount * floor(cap / shardCount)`
= `1 * (4 / 1)` = 4. -/
theorem C6_counterexample :
    emitSplit (some 4) (fun l : List Nat => l) [[]] = [] ∧
    ([[]] : List (List Nat)).length *
      (4 / ([[]] : List (List Nat)).length) = 4 := by
  decide

/-- C6 (amended): with a nonzero cap (a cap of 0 is Python-falsy and
disables truncation), a count-preserving (identity) preprocessor and every
shard's underlying stream nonempty, each shard emits exactly
`floor(cap / shardCount)` records — repeating its stream when it holds
fewer — and the split therefore yields
`shardCount * floor(cap / shardCount)` records rather than exactly the
cap; a shard with an empty stream, however, emits nothing. -/
theorem C6_shard_cap_amended {α : Type} (shards : List (List α)) (c : Nat)
    (hc : c ≠ 0) (hne : ∀ s ∈ shards, s ≠ []) :
    (∀ s ∈ shards,
      (emitShard (some c) shards.length (fun l => l) s).length =
        c / shards.length) ∧
    (emitSplit (some c) (fun l => l) shards).length =
      shards.length * (c / shards.length) := by
  have hsh : ∀ s ∈ shards,
      (emitShard (some c) shards.length (fun l => l) s).length =
        c / shards.length := by
    intro s hs
    have hes : emitShard (some c) shards.length (fun l : List α => l) s =
        repeatTake s (c / shards.length) := by
      simp [emitShard, hc]
    rw [hes, repeatTake_length_of_ne s (c / shards.length) (hne s hs)]
  refine ⟨hsh, ?_⟩
  rw [emitSplit, List.length_flatMap]
  have hmap : List.map
      (List.length ∘ emitShard (some c) shards.length fun l : List α => l)
      shards = List.map (Function.const (List α) (c / shards.length)) shards := by
    refine List.map_congr_left ?_
    intro s hs
    simp only [Function.comp_apply, Function.const_apply]
    exact hsh s hs
  rw [hmap, List.map_const, List.sum_replicate, smul_eq_mul]

theorem C6_shard_cap_witness :
    (emitSplit (some 5) (fun l : List Nat => l) [[1, 2], [3]]).length = 4 := by
  have h := (C6_shard_cap_amended ([[1, 2], [3]] : List (List Nat)) 5
    (by decide) (by decide)).2
  rw [h]
  decide

theorem C5_zero_splits_witness :
    (processTask (fun n => n) "root" false "" ⟨"y", true, none, []⟩).1 = none ∧
    ((processTask (fun n => n) "root" false "" ⟨"y", true, none, []⟩).2 = [] ∨
      (false = true ∧
        CTask.cacheDir ⟨"y", true, none, []⟩ =
          some (pathJoin "root" ((fun n => n) "y")) ∧
        (processTask (fun n => n) "root" false "" ⟨"y", true, none, []⟩).2 =
          [FAction.rmtree (pathJoin "root" ((fun n => n) "y"))])) :=
  C5_zero_splits_amended (fun n => n) "root" "" false ⟨"y", true, none, []⟩ rfl



